import Mathlib

/-!
# Verification of the RAG context pipeline

Shallow embedding of the retrieval-augmented context pipeline of the
`ai-chatbot` repository: the token-window chunker (`src/routes/upload.js`,
`chunkTextByTokens`), the embedding adapter (`src/services/vector.js`,
`getEmbedding`), the vector index operations (`upsertChunks`, `search`),
the lexical fallback scorer (`src/routes/chat.js`, `findRelevantChunks`),
and the context/history budgeting of the chat route.

JavaScript numbers that are used as integers are modelled as `Nat`/`Int`;
embedding vectors (arrays of JS floats) are modelled with an abstract
integer scalar, since no claim depends on float arithmetic.  JavaScript
values that flow through payloads are modelled by the small inductive
`PVal`, covering exactly the shapes the repository produces (strings,
arrays of strings, integers, `null`).
-/

/-- JavaScript value shapes appearing in chunk/payload fields of this
repository: plain strings, arrays of strings (the chunker stores `text`
as `[string]`), integers, and `null`. -/
inductive PVal where
  | str (s : String)
  | strArr (l : List String)
  | intv (n : Int)
  | nullv
deriving DecidableEq, Repr

/-- Model of `coerceToString` from `src/routes/chat.js`: strings pass through,
`null`/`undefined` become `""`, arrays are coerced elementwise and joined
with a space (`value.map(coerceToString).join(' ')`), numbers are
stringified. -/
def coerceToString : PVal → String
  | .str s => s
  | .strArr l => String.intercalate " " l
  | .intv n => toString n
  | .nullv => ""

/-- JS `x || d` for an optionally-present integer field: an absent field
or the falsy value `0` selects the default, any other number is kept. -/
def jsOrDefault (v : Option Int) (d : Int) : Int :=
  match v with
  | none => d
  | some x => if x = 0 then d else x

/-- One chunk as emitted by `chunkTextByTokens`
(`chunks.push({ text: [text], page: null, chunkIndex })`). -/
structure ChunkRec where
  text : PVal
  page : Option Int
  chunkIndex : Nat
deriving DecidableEq, Repr

/-- The `while (start < tokens.length)` loop of `chunkTextByTokens`
(`src/routes/upload.js` lines 203-223), with explicit fuel because the
source loop has no syntactic termination guarantee.  `dec` abstracts
`encoder.decode` (plus the `TextDecoder` dance).  `none` means the fuel
ran out, i.e. the loop performed more iterations than the fuel allows.
The `start = end - overlap; if (start < 0) start = 0` advance is Nat
truncated subtraction. -/
def chunkLoopF (dec : List Nat → String) (tokens : List Nat) (chunkSize overlap : Nat) :
    Nat → Nat → Nat → Option (List ChunkRec)
  | 0, _, _ => none
  | fuel + 1, start, chunkIndex =>
    if start < tokens.length then
      let e := min (start + chunkSize) tokens.length
      let slice := (tokens.drop start).take (e - start)
      let c : ChunkRec := ⟨PVal.strArr [dec slice], none, chunkIndex⟩
      if e = tokens.length then
        some [c]
      else
        match chunkLoopF dec tokens chunkSize overlap fuel (e - overlap) (chunkIndex + 1) with
        | some rest => some (c :: rest)
        | none => none
    else
      some []

/-- Model of `chunkTextByTokens(rawText, opts)` from `src/routes/upload.js`:
`chunkSize = Math.max(1, opts.chunkTokens || 2000)`,
`overlap = Math.max(0, opts.overlapTokens || 0)`, then the window loop.
The tokenizer (`encoder.encode`) is external, so the function is stated
over the encoded token sequence; `dec` abstracts `encoder.decode`.  The
canonical fuel `tokens.length + 1` is enough for every terminating run
of the source loop, so `none` exactly marks an input on which the JS
loop does not terminate. -/
def chunkTextByTokens (dec : List Nat → String) (tokens : List Nat)
    (chunkTokens overlapTokens : Option Int) : Option (List ChunkRec) :=
  let chunkSize : Nat := (max 1 (jsOrDefault chunkTokens 2000)).toNat
  let overlap : Nat := (max 0 (jsOrDefault overlapTokens 0)).toNat
  chunkLoopF dec tokens chunkSize overlap (tokens.length + 1) 0 0

/-- Ceiling division on naturals, used to state the chunk-count formula. -/
def specCeilDiv (a b : Nat) : Nat := (a + b - 1) / b

/-- The chunk-count formula exactly as the spec words it:
`ceil(max(N - O, 0) / (C - O))` (Nat subtraction is the `max(·,0)`). -/
def claimedChunkCount (n c o : Nat) : Nat := specCeilDiv (n - o) (c - o)

/-- A concrete decoder standing in for `encoder.decode` in closed
counterexamples: each token decodes to one `x`. -/
def dec0 (ts : List Nat) : String := String.mk (List.replicate ts.length 'x')

/-- The list `[ci, ci+1, ..., ci+n-1]`: the expected `chunkIndex`
sequence of `n` chunks emitted from counter value `ci`. -/
def idxFrom : Nat → Nat → List Nat
  | _, 0 => []
  | ci, n + 1 => ci :: idxFrom (ci + 1) n

/-! ## Embedding adapter (`getEmbedding`, `src/services/vector.js` 158-190) -/

/-- Embedding vectors.  JS float arrays are modelled with integer scalars;
no claim depends on float arithmetic. -/
abbrev Vec := List Int

/-- The fields of an Ollama embedding response that the adapter probes.
A field is `some _` exactly when `Array.isArray(...)` holds for it in JS
(`resp.data?.embedding`, `resp.data?.embeddings`,
`resp.data?.data?.embeddings`); `none` covers absent or non-array values. -/
structure EmbResp where
  embedding : Option Vec
  embeddings : Option (List Vec)
  dataEmbeddings : Option (List Vec)
deriving DecidableEq, Repr

/-- The fixed-priority three-shape probe of `getEmbedding`.  Outer
`Option`: did any shape match (did some `return` fire)?  Inner `Option`:
the returned value, where `none` is JS `undefined` (`embeddings[0]` of an
empty array). -/
def probeShapes (r : EmbResp) : Option (Option Vec) :=
  match r.embedding with
  | some v => some (some v)
  | none =>
    match r.embeddings with
    | some rows => some rows.head?
    | none =>
      match r.dataEmbeddings with
      | some rows => some rows.head?
      | none => none

/-- Model of the `getEmbedding` control flow (`src/services/vector.js` 158-190).
`primary`/`legacy` are the outcomes of the two `axios.post` calls
(`.error` = the call threw).  Crucially, in the source the legacy call
sits inside the `catch` of the primary call, so a primary response that
matches no shape falls through the `try` block straight to
`throw new Error('Invalid embedding response from Ollama')` without
consulting the legacy endpoint. -/
def getEmbedding (primary legacy : Except Unit EmbResp) : Except Unit (Option Vec) :=
  match primary with
  | .ok r =>
    match probeShapes r with
    | some v => .ok v
    | none => .error ()
  | .error _ =>
    match legacy with
    | .ok r2 =>
      match probeShapes r2 with
      | some v => .ok v
      | none => .error ()
    | .error _ => .error ()

/-! ## Vector index (`upsertChunks`, `search`, `src/services/vector.js`) -/

/-- Payloads are JS objects; modelled as key/value lists in insertion
order, where a later entry for the same key overrides an earlier one
(object-literal spread semantics). -/
abbrev JsObj := List (String × PVal)

/-- Property lookup on the object model: the last write to a key wins,
as with `{ a: 1, ...{ a: 2 } }`. -/
def jsGet (obj : JsObj) (k : String) : Option PVal :=
  match obj.reverse.find? (fun kv => kv.1 = k) with
  | some kv => some kv.2
  | none => none

/-- JS `chunk.page || null`: `0` is falsy, so a page of `0` is stored as
`null` too. -/
def jsPageOrNull (page : Option Int) : PVal :=
  match page with
  | some p => if p = 0 then PVal.nullv else PVal.intv p
  | none => PVal.nullv

/-- The payload built for one point in `upsertChunks`
(`src/services/vector.js` 298-304):
`{ documentId, text, page, chunkIndex, ...baseMetadata }` — the spread
of `baseMetadata` comes after the four core fields. -/
def chunkPayload (documentId : String) (c : ChunkRec) (baseMetadata : JsObj) : JsObj :=
  [("documentId", PVal.str documentId), ("text", c.text),
   ("page", jsPageOrNull c.page), ("chunkIndex", PVal.intv c.chunkIndex)] ++ baseMetadata

/-- One stored vector point (`{ id: uuidv4(), vector, payload }`). -/
structure QPoint where
  id : String
  vector : Vec
  payload : JsObj
deriving DecidableEq, Repr

/-- The point-building loop of `upsertChunks` (lines 292-306): chunk `0`
reuses the already-computed `firstEmbedding`, later chunks are embedded
sequentially; `genId` abstracts `uuidv4()`.  An embedding failure aborts
the whole build with the exception. -/
def buildPointsAux (embed : PVal → Except Unit Vec) (genId : Nat → String)
    (documentId : String) (baseMetadata : JsObj) (firstVec : Vec) :
    Nat → List ChunkRec → Except Unit (List QPoint)
  | _, [] => .ok []
  | i, c :: rest =>
    match (if i = 0 then Except.ok firstVec else embed c.text) with
    | .error e => .error e
    | .ok v =>
      match buildPointsAux embed genId documentId baseMetadata firstVec (i + 1) rest with
      | .error e => .error e
      | .ok ps => .ok ({ id := genId i, vector := v, payload := chunkPayload documentId c baseMetadata } :: ps)

/-- Model of `upsertChunks(documentId, chunks, baseMetadata)`
(`src/services/vector.js` 282-314) over an explicit backend point-set
state.  Empty `chunks` returns `{upserted: 0}` with no backend call; the
first chunk is embedded before `ensureCollection` (which only touches
collection metadata, never the point set, so it is the identity on
`state` here); all points are built before the single
`c.upsert(QDRANT_COLLECTION, { wait: true, points })`, which appends the
whole batch.  The returned pair is (JS result or thrown error, point set
after the call). -/
def upsertChunks (embed : PVal → Except Unit Vec) (genId : Nat → String)
    (documentId : String) (chunks : List ChunkRec) (baseMetadata : JsObj)
    (state : List QPoint) : Except Unit Nat × List QPoint :=
  match chunks with
  | [] => (.ok 0, state)
  | c0 :: _ =>
    match embed c0.text with
    | .error e => (.error e, state)
    | .ok firstVec =>
      match buildPointsAux embed genId documentId baseMetadata firstVec 0 chunks with
      | .error e => (.error e, state)
      | .ok pts => (.ok pts.length, state ++ pts)

/-- One search hit, `{ id, score, payload }`. -/
structure SearchResult where
  id : String
  score : Int
  payload : JsObj
deriving DecidableEq, Repr

/-- Modelled from the spec: the vector database backend (Qdrant, an
external collaborator specified in §6) performs filtered nearest-neighbor
search — it considers exactly the points whose payload `documentId`
equals the filter value (`filter.must = [{ key: 'documentId', match:
{ value: documentId } }]`), ranks them by similarity to the query vector
(descending; the metric is the parameter `sim`, since cosine over floats
is external), and returns at most `limit` hits. -/
def qdrantFilteredSearch (sim : Vec → Vec → Int) (points : List QPoint) (qv : Vec)
    (limit : Nat) (docId : String) : List SearchResult :=
  let matched := points.filter (fun p => jsGet p.payload "documentId" = some (PVal.str docId))
  let ranked := matched.insertionSort (fun a b => sim qv b.vector ≤ sim qv a.vector)
  (ranked.take limit).map (fun p => ⟨p.id, sim qv p.vector, p.payload⟩)

/-- Model of `search(documentId, queryText, topK)` (`src/services/vector.js`
381-395): embed the query (`qEmbed` is the outcome of `getEmbedding` on
the query text), then run the filtered backend search; `ensureCollection`
does not touch the point set.  If the query embedding throws, `search`
propagates the exception. -/
def search (sim : Vec → Vec → Int) (points : List QPoint) (qEmbed : Except Unit Vec)
    (documentId : String) (topK : Nat) : Except Unit (List SearchResult) :=
  match qEmbed with
  | .error e => .error e
  | .ok qv => .ok (qdrantFilteredSearch sim points qv topK documentId)

/-! ## Lexical fallback scorer — candidate sentences
(`findRelevantChunks`, `src/routes/chat.js` 24-26) -/

/-- Sentence-terminal punctuation, the character class of the split
regex `/[.!?]+/`. -/
def isTerminal (c : Char) : Bool := c = '.' || c = '!' || c = '?'

/-- JS whitespace as trimmed by `String.prototype.trim`, restricted to
the ASCII whitespace characters occurring in this pipeline. -/
def isWsChar (c : Char) : Bool :=
  c = ' ' || c = '\t' || c = '\n' || c = '\r' || c = '\x0b' || c = '\x0c'

/-- JS `s.trim()`: strip leading and trailing whitespace. -/
def jsTrim (s : String) : String :=
  String.mk (((s.data.dropWhile isWsChar).reverse.dropWhile isWsChar).reverse)

/-- JS `content.split(/[.!?]+/)` as a character-level state machine: a
maximal run of terminal characters ends the current fragment; a leading
run yields a leading `""` and a trailing run a trailing `""`, exactly as
JS `split` with a one-or-more regex behaves.  `cur` is the current
fragment reversed, `lastTerm` records whether the previous character was
terminal. -/
def splitTermAux : List Char → List Char → Bool → List (List Char)
  | [], cur, lastTerm => if lastTerm then [cur.reverse, []] else [cur.reverse]
  | c :: rest, cur, lastTerm =>
    if isTerminal c then
      splitTermAux rest cur true
    else
      if lastTerm then
        cur.reverse :: splitTermAux rest [c] false
      else
        splitTermAux rest (c :: cur) false

/-- JS `content.split(/[.!?]+/)` on strings. -/
def splitTerminal (content : String) : List String :=
  (splitTermAux content.data [] false).map String.mk

/-- The candidate-sentence stage of `findRelevantChunks`
(`src/routes/chat.js` line 25):
`content.split(/[.!?]+/).filter(s => s.trim().length > 10)`. -/
def findCandidateSentences (content : String) : List String :=
  (splitTerminal content).filter (fun s => decide (10 < (jsTrim s).length))

/-! ## Context assembler (`src/routes/chat.js`) -/

/-- One retrieval result as held in `contextResults`
(`{ text, page, score }`). -/
structure CtxItem where
  text : PVal
  page : Option Int
  score : Int
deriving DecidableEq, Repr

/-- One forwarded conversation turn (`{ role, content }`). -/
structure Turn where
  role : String
  content : String
deriving DecidableEq, Repr

/-- JS `s.slice(0, n)` on strings for a nonnegative cap `n`: the first `n`
characters. -/
def jsStringTake (s : String) (n : Nat) : String := String.mk (s.data.take n)

/-- ECMAScript `Array.prototype.slice(start)` with a single (possibly
negative) start index: a negative start counts from the end, clamped at
`0`; a nonnegative start is clamped at the length.  Note `-0` is `0`, so
`slice(-0)` is `slice(0)`, the whole array. -/
def jsSliceStart {α : Type} (l : List α) (start : Int) : List α :=
  if start < 0 then l.drop ((l.length + start).toNat) else l.drop start.toNat

/-- Model of `conversationHistory.slice(-HISTORY_MESSAGES)` from
`generateAIResponse` (`src/routes/chat.js` line 61): the history
actually forwarded to the model. -/
def recentHistory (history : List Turn) (historyMessages : Nat) : List Turn :=
  jsSliceStart history (-(historyMessages : Int))

/-- Model of `normalizedContext` (`src/routes/chat.js` 317-320):
`contextResults.slice(0, MAX_CONTEXT_CHUNKS)
  .map(c => coerceToString(c.text).slice(0, CONTEXT_CHARS_PER_CHUNK))
  .filter(t => typeof t === 'string' && t.length > 0)`
(after `coerceToString` and `slice` the value is always a string, so the
`typeof` test is the nonemptiness test). -/
def normalizedContext (contextResults : List CtxItem) (maxContextChunks charsPerChunk : Nat) :
    List String :=
  (((contextResults.take maxContextChunks).map
      (fun c => jsStringTake (coerceToString c.text) charsPerChunk)).filter
    (fun t => decide (0 < t.length)))

/-! ## Helper lemmas -/

theorem specCeilDiv_le_one {a b : Nat} (hb : 1 ≤ b) (h : a ≤ b) : specCeilDiv a b ≤ 1 := by
  unfold specCeilDiv
  have : a + b - 1 < 2 * b := by omega
  have := (Nat.div_lt_iff_lt_mul hb).mpr (by omega : a + b - 1 < 2 * b)
  omega

theorem specCeilDiv_pos {a b : Nat} (ha : 1 ≤ a) (hb : 1 ≤ b) : 1 ≤ specCeilDiv a b := by
  unfold specCeilDiv
  have h1 : b ≤ a + b - 1 := by omega
  have := (Nat.one_le_div_iff (show 0 < b by omega)).mpr h1
  omega

theorem specCeilDiv_two_le {a b : Nat} (hb : 1 ≤ b) (h : b + 1 ≤ a) : 2 ≤ specCeilDiv a b := by
  unfold specCeilDiv
  have h1 : 2 * b ≤ a + b - 1 := by omega
  have := (Nat.le_div_iff_mul_le (show 0 < b by omega)).mpr h1
  omega

/-- Loop-exit equation: the loop is never entered once `start` has
reached the end of the token sequence. -/
theorem chunkLoopF_step_out (dec : List Nat → String) (tokens : List Nat) (cs ov fuel start ci : Nat)
    (hstart : tokens.length ≤ start) :
    chunkLoopF dec tokens cs ov (fuel + 1) start ci = some [] := by
  simp only [chunkLoopF, if_neg (by omega : ¬ start < tokens.length)]

/-- Final-window equation: when the window reaches the end of the token
sequence the loop emits the tail window and breaks. -/
theorem chunkLoopF_step_final (dec : List Nat → String) (tokens : List Nat)
    (cs ov fuel start ci : Nat) (hstart : start < tokens.length)
    (he : tokens.length ≤ start + cs) :
    chunkLoopF dec tokens cs ov (fuel + 1) start ci =
      some [⟨PVal.strArr [dec (tokens.drop start)], none, ci⟩] := by
  have hmin : min (start + cs) tokens.length = tokens.length := Nat.min_eq_right he
  have htake : (tokens.drop start).take (tokens.length - start) = tokens.drop start := by
    apply List.take_of_length_le
    simp [List.length_drop]
  simp only [chunkLoopF, if_pos hstart, hmin, if_pos rfl, htake, ite_true]

/-- Mid-window equation: a window that does not reach the end emits one
chunk of exactly `cs` tokens and advances to `start + cs - ov`. -/
theorem chunkLoopF_step_mid (dec : List Nat → String) (tokens : List Nat)
    (cs ov fuel start ci : Nat) (hstart : start + cs < tokens.length) :
    chunkLoopF dec tokens cs ov (fuel + 1) start ci =
      match chunkLoopF dec tokens cs ov fuel (start + cs - ov) (ci + 1) with
      | some rest => some (⟨PVal.strArr [dec ((tokens.drop start).take cs)], none, ci⟩ :: rest)
      | none => none := by
  have hmin : min (start + cs) tokens.length = start + cs := Nat.min_eq_left (by omega)
  have hcs : start + cs - start = cs := by omega
  simp only [chunkLoopF, if_pos (by omega : start < tokens.length), hmin,
    if_neg (by omega : ¬ start + cs = tokens.length), hcs]

theorem specCeilDiv_add_self {a b : Nat} (hb : 1 ≤ b) :
    specCeilDiv (a + b) b = specCeilDiv a b + 1 := by
  unfold specCeilDiv
  have h1 : a + b + b - 1 = (a + b - 1) + b := by omega
  rw [h1, Nat.add_div_right _ (by omega : 0 < b)]

/-- Progress and exact count of the chunk loop: when the effective step
`cs - ov` is positive, the loop terminates within `tokens.length - start`
plus one iterations and, started inside the token sequence, emits exactly
`max 1 ⌈(remaining - ov) / (cs - ov)⌉` chunks. -/
theorem chunkLoopF_count (dec : List Nat → String) (tokens : List Nat) (cs ov : Nat)
    (hov : ov < cs) :
    ∀ fuel start ci, tokens.length - start < fuel → start < tokens.length →
      ∃ l, chunkLoopF dec tokens cs ov fuel start ci = some l ∧
        l.length = max 1 (specCeilDiv (tokens.length - start - ov) (cs - ov)) := by
  intro fuel
  induction fuel with
  | zero => intro start ci hfuel hstart; omega
  | succ fuel ih =>
    intro start ci hfuel hstart
    by_cases he : start + cs < tokens.length
    · -- non-final window: the loop recurses at start + cs - ov
      have hstart' : start + cs - ov < tokens.length := by omega
      have hfuel' : tokens.length - (start + cs - ov) < fuel := by omega
      obtain ⟨rest, hrest, hlen⟩ := ih (start + cs - ov) (ci + 1) hfuel' hstart'
      refine ⟨_, by rw [chunkLoopF_step_mid dec tokens cs ov fuel start ci he, hrest], ?_⟩
      simp only [List.length_cons, hlen]
      -- arithmetic: remaining R = tokens.length - start satisfies R > cs
      have hR : tokens.length - (start + cs - ov) - ov = tokens.length - start - cs := by omega
      rw [hR]
      have hb : 1 ≤ cs - ov := by omega
      have h2 : 2 ≤ specCeilDiv (tokens.length - start - ov) (cs - ov) :=
        specCeilDiv_two_le hb (by omega)
      have h1 : 1 ≤ specCeilDiv (tokens.length - start - cs) (cs - ov) :=
        specCeilDiv_pos (by omega) hb
      have hsplit : tokens.length - start - ov = (tokens.length - start - cs) + (cs - ov) := by
        omega
      rw [hsplit, specCeilDiv_add_self hb]
      omega
    · -- final window: the loop emits one last chunk and breaks
      refine ⟨_, chunkLoopF_step_final dec tokens cs ov fuel start ci hstart (by omega), ?_⟩
      have hle : specCeilDiv (tokens.length - start - ov) (cs - ov) ≤ 1 :=
        specCeilDiv_le_one (by omega) (by omega)
      simp only [List.length_cons, List.length_nil]
      omega

/-- Structure of every successful loop run: each emitted chunk stores its
text as a one-element string array and a `null` page, and the chunk
indices are consecutive from the starting counter value. -/
theorem chunkLoopF_shape (dec : List Nat → String) (tokens : List Nat) (cs ov : Nat) :
    ∀ fuel start ci l, chunkLoopF dec tokens cs ov fuel start ci = some l →
      (∀ c ∈ l, (∃ s, c.text = PVal.strArr [s]) ∧ c.page = none) ∧
        l.map ChunkRec.chunkIndex = idxFrom ci l.length := by
  intro fuel
  induction fuel with
  | zero => intro start ci l h; simp [chunkLoopF] at h
  | succ fuel ih =>
    intro start ci l h
    by_cases hstart : start < tokens.length
    · by_cases he : start + cs < tokens.length
      · rw [chunkLoopF_step_mid dec tokens cs ov fuel start ci he] at h
        cases hrec : chunkLoopF dec tokens cs ov fuel (start + cs - ov) (ci + 1) with
        | none => rw [hrec] at h; cases h
        | some rest =>
          rw [hrec] at h
          obtain ⟨hall, hmap⟩ := ih (start + cs - ov) (ci + 1) rest hrec
          cases h
          constructor
          · intro c hc
            rcases List.mem_cons.mp hc with hceq | hcm
            · subst hceq; exact ⟨⟨_, rfl⟩, rfl⟩
            · exact hall c hcm
          · simp only [List.map_cons, List.length_cons, idxFrom, hmap]
      · rw [chunkLoopF_step_final dec tokens cs ov fuel start ci hstart (by omega)] at h
        cases h
        constructor
        · intro c hc
          rcases List.mem_cons.mp hc with hceq | hcm
          · subst hceq; exact ⟨⟨_, rfl⟩, rfl⟩
          · simp at hcm
        · simp [idxFrom]
    · rw [chunkLoopF_step_out dec tokens cs ov fuel start ci (by omega)] at h
      cases h
      constructor
      · intro c hc
        simp at hc
      · simp [idxFrom]

/-- On three tokens with `chunkSize = overlap = 2` the loop re-enters
with `start = 0` forever: no amount of fuel completes it. -/
theorem chunkLoopF_stuck (dec : List Nat → String) :
    ∀ fuel ci, chunkLoopF dec [0, 1, 2] 2 2 fuel 0 ci = none := by
  intro fuel
  induction fuel with
  | zero => intro ci; simp [chunkLoopF]
  | succ fuel ih =>
    intro ci
    rw [chunkLoopF_step_mid dec [0, 1, 2] 2 2 fuel 0 ci (by decide)]
    have h0 : 0 + 2 - 2 = 0 := by omega
    rw [h0, ih (ci + 1)]

/-! ## Claims about the chunker -/

/-- C2 — refuted as stated, recorded as a code bug: the source performs
no clamping of the advance step, so with `chunkTokens = 2` and
`overlapTokens = 2` on a three-token input the loop re-enters with
`start = 0` on every iteration and never terminates (the fuel semantics
yields `none` for every fuel, and in particular for the canonical fuel
used by `chunkTextByTokens`).  The claim/spec intent — a step clamp
guaranteeing termination — is absent from the code. -/
theorem chunkTextByTokens_diverges_when_overlap_ge_chunk (dec : List Nat → String) :
    (∀ fuel ci, chunkLoopF dec [0, 1, 2] 2 2 fuel 0 ci = none) ∧
      chunkTextByTokens dec [0, 1, 2] (some 2) (some 2) = none := by
  refine ⟨chunkLoopF_stuck dec, ?_⟩
  simp only [chunkTextByTokens]
  exact chunkLoopF_stuck dec 4 0

/-- C4 — counterexample to the claimed chunk-count formula: a single
token with `chunkTokens = 2`, `overlapTokens = 1` yields `1` chunk,
while `ceil(max(N - O, 0) / (C - O)) = ceil(0 / 1) = 0`. -/
theorem chunkCount_claimed_formula_fails :
    (chunkTextByTokens dec0 [5] (some 2) (some 1)).map List.length = some 1 ∧
      claimedChunkCount 1 2 1 = 0 ∧
      (chunkTextByTokens dec0 [5] (some 2) (some 1)).map List.length ≠
        some (claimedChunkCount 1 2 1) := by
  refine ⟨by decide, by decide, by decide⟩

/-- C4 (amended) — for every non-empty token sequence and configuration
`O < C` (with `C ≥ 1`), chunking terminates and produces exactly
`max(1, ceil((N - O) / (C - O)))` chunks; the claimed formula
`ceil(max(N - O, 0) / (C - O))` is correct whenever `N > O`, and any
input with `N ≤ C` tokens produces exactly one chunk. -/
theorem chunkCount_formula (dec : List Nat → String) (tokens : List Nat) (c o : Nat)
    (hc : 0 < c) (ho : o < c) (hne : tokens ≠ []) :
    ∃ l, chunkTextByTokens dec tokens (some (c : Int)) (some (o : Int)) = some l ∧
      l.length = max 1 (claimedChunkCount tokens.length c o) ∧
      (tokens.length ≤ c → l.length = 1) := by
  have hcs : (max 1 (jsOrDefault (some (c : Int)) 2000)).toNat = c := by
    simp only [jsOrDefault]
    rw [if_neg (by omega : ¬ (c : Int) = 0)]
    omega
  have hovn : (max 0 (jsOrDefault (some (o : Int)) 0)).toNat = o := by
    simp only [jsOrDefault]
    by_cases h0 : (o : Int) = 0
    · rw [if_pos h0]; omega
    · rw [if_neg h0]; omega
  have hlen : 0 < tokens.length := List.length_pos.mpr hne
  obtain ⟨l, heq, hcount⟩ :=
    chunkLoopF_count dec tokens c o ho (tokens.length + 1) 0 0 (by omega) hlen
  refine ⟨l, ?_, ?_, ?_⟩
  · simp only [chunkTextByTokens, hcs, hovn]
    exact heq
  · simpa [claimedChunkCount] using hcount
  · intro hsmall
    have hle : specCeilDiv (tokens.length - 0 - o) (c - o) ≤ 1 :=
      specCeilDiv_le_one (by omega) (by omega)
    omega

/-- Witness for C4 (amended): five tokens with `C = 2`, `O = 1` produce
`max(1, ceil((5-1)/1)) = 4` chunks. -/
theorem chunkCount_formula_witness :
    ∃ l, chunkTextByTokens dec0 [1, 2, 3, 4, 5] (some (2 : Int)) (some (1 : Int)) = some l ∧
      l.length = max 1 (claimedChunkCount [1, 2, 3, 4, 5].length 2 1) ∧
      ([1, 2, 3, 4, 5].length ≤ 2 → l.length = 1) :=
  chunkCount_formula dec0 [1, 2, 3, 4, 5] 2 1 (by decide) (by decide) (by decide)

/-- C6 — counterexample to "the text field of each emitted chunk is a
string": the chunker stores the decoded window as a one-element string
array (`chunks.push({ text: [text], ... })`), never as a plain string. -/
theorem chunk_text_is_array_not_string :
    chunkTextByTokens dec0 [7] (some 2000) (some 200) =
        some [⟨PVal.strArr ["x"], none, 0⟩] ∧
      ∀ s : String, PVal.strArr ["x"] ≠ PVal.str s :=
  ⟨by decide, fun _ h => PVal.noConfusion h⟩

/-- C6 (amended) — every chunk produced by the chunker has the shape
`{ chunkIndex: int, text: [string], page: null }`: the text field is a
one-element array holding the decoded window, the page is always `null`,
and `chunkIndex` is consecutive starting at `0`. -/
theorem chunk_shape (dec : List Nat → String) (tokens : List Nat)
    (chunkTokens overlapTokens : Option Int) (l : List ChunkRec)
    (h : chunkTextByTokens dec tokens chunkTokens overlapTokens = some l) :
    (∀ c ∈ l, (∃ s, c.text = PVal.strArr [s]) ∧ c.page = none) ∧
      l.map ChunkRec.chunkIndex = idxFrom 0 l.length := by
  simp only [chunkTextByTokens] at h
  exact chunkLoopF_shape dec tokens _ _ _ 0 0 l h

/-- Witness for C6 (amended): a concrete two-chunk run. -/
theorem chunk_shape_witness :
    (∀ c ∈ [(⟨PVal.strArr ["xx"], none, 0⟩ : ChunkRec), ⟨PVal.strArr ["x"], none, 1⟩],
        (∃ s, c.text = PVal.strArr [s]) ∧ c.page = none) ∧
      [(⟨PVal.strArr ["xx"], none, 0⟩ : ChunkRec), ⟨PVal.strArr ["x"], none, 1⟩].map
          ChunkRec.chunkIndex =
        idxFrom 0 [(⟨PVal.strArr ["xx"], none, 0⟩ : ChunkRec),
          ⟨PVal.strArr ["x"], none, 1⟩].length :=
  chunk_shape dec0 [1, 2, 3] (some 2) (some 0) _ (by decide)

/-- C7 — counterexample to "non-positive `chunkTokens` fails with a
`ChunkingError`": with `chunkTokens = -5` the source clamps the chunk
size to `1` via `Math.max(1, ...)` and happily produces one chunk per
token; no configuration validation error exists in the code. -/
theorem nonpositive_chunkTokens_produces_chunks :
    chunkTextByTokens dec0 [9, 8, 7] (some (-5)) (some 0) =
      some [⟨PVal.strArr ["x"], none, 0⟩, ⟨PVal.strArr ["x"], none, 1⟩,
        ⟨PVal.strArr ["x"], none, 2⟩] := by
  decide

/-- With an effective chunk size of `1` (the clamp of any negative
`chunkTokens`) and any overlap of at least `1`, the loop never advances
past `start = 0` on an input of two or more tokens: `start = end -
overlap` is `1 - overlap ≤ 0`, clamped back to `0`.  No fuel completes
the loop. -/
theorem chunkLoopF_stuck_chunkSize_one (dec : List Nat → String) (tokens : List Nat)
    (o : Nat) (ho : 1 ≤ o) (hlen : 2 ≤ tokens.length) :
    ∀ fuel ci, chunkLoopF dec tokens 1 o fuel 0 ci = none := by
  intro fuel
  induction fuel with
  | zero => intro ci; simp [chunkLoopF]
  | succ fuel ih =>
    intro ci
    rw [chunkLoopF_step_mid dec tokens 1 o fuel 0 ci (by omega)]
    have h0 : 0 + 1 - o = 0 := by omega
    rw [h0, ih (ci + 1)]

/-- C7 (amended) — a non-positive `chunkTokens` never raises a
configuration error: `0` is falsy and falls back to the default `2000`,
a negative value is clamped to an effective chunk size of `1` by
`Math.max(1, ...)`, and the loop then runs as usual — whenever the
configured overlap is below the effective chunk size it terminates and
produces at least one chunk for non-empty input, while a negative
`chunkTokens` combined with any overlap of at least `1` (including the
repository's real `100`/`200` settings) makes the loop diverge on
inputs of two or more tokens.  In no case is a `ChunkingError` raised
for the configuration. -/
theorem nonpositive_chunkTokens_clamped (dec : List Nat → String) (tokens : List Nat)
    (t : Int) (o : Nat) (ht : t ≤ 0) :
    ((max 1 (jsOrDefault (some t) 2000)).toNat = if t = 0 then 2000 else 1) ∧
      (o < (if t = 0 then 2000 else 1) →
        ∃ l, chunkTextByTokens dec tokens (some t) (some (o : Int)) = some l ∧
          (tokens ≠ [] → l ≠ [])) ∧
      (t < 0 → 1 ≤ o → 2 ≤ tokens.length →
        chunkTextByTokens dec tokens (some t) (some (o : Int)) = none) := by
  have hcs : (max 1 (jsOrDefault (some t) 2000)).toNat = if t = 0 then 2000 else 1 := by
    simp only [jsOrDefault]
    by_cases h0 : t = 0
    · rw [if_pos h0, if_pos h0]; decide
    · rw [if_neg h0, if_neg h0]; omega
  have hovn : (max 0 (jsOrDefault (some (o : Int)) 0)).toNat = o := by
    simp only [jsOrDefault]
    by_cases h0 : (o : Int) = 0
    · rw [if_pos h0]; omega
    · rw [if_neg h0]; omega
  refine ⟨hcs, ?_, ?_⟩
  · intro hlt
    by_cases hne : tokens = []
    · refine ⟨[], ?_, fun h => absurd hne h⟩
      simp only [chunkTextByTokens]
      apply chunkLoopF_step_out
      simp [hne]
    · have hlen : 0 < tokens.length := List.length_pos.mpr hne
      obtain ⟨l, heq, hcount⟩ :=
        chunkLoopF_count dec tokens (if t = 0 then 2000 else 1) o
          hlt (tokens.length + 1) 0 0 (by omega) hlen
      refine ⟨l, ?_, fun _ => ?_⟩
      · simp only [chunkTextByTokens, hcs, hovn]
        exact heq
      · have h1 : 1 ≤ l.length := by omega
        intro hl
        simp [hl] at h1
  · intro htneg ho hlen2
    have hcs1 : (max 1 (jsOrDefault (some t) 2000)).toNat = 1 := by
      rw [hcs, if_neg (by omega : ¬ t = 0)]
    simp only [chunkTextByTokens, hcs1, hovn]
    exact chunkLoopF_stuck_chunkSize_one dec tokens o ho hlen2 (tokens.length + 1) 0

/-- Witness for C7 (amended): at `chunkTokens = -5` on three tokens,
zero overlap produces chunks (no error), and overlap `1` diverges. -/
theorem nonpositive_chunkTokens_clamped_witness :
    (∃ l, chunkTextByTokens dec0 [9, 8, 7] (some (-5)) (some ((0 : Nat) : Int)) = some l ∧
        ([9, 8, 7] ≠ ([] : List Nat) → l ≠ [])) ∧
      chunkTextByTokens dec0 [9, 8, 7] (some (-5)) (some ((1 : Nat) : Int)) = none :=
  ⟨(nonpositive_chunkTokens_clamped dec0 [9, 8, 7] (-5) 0 (by decide)).2.1 (by decide),
    (nonpositive_chunkTokens_clamped dec0 [9, 8, 7] (-5) 1 (by decide)).2.2 (by decide)
      (by decide) (by decide)⟩

/-! ## Claims about the embedding adapter -/

/-- C3 — counterexample: when the primary endpoint *resolves* with a
response matching none of the three shapes, the source falls through
the `try` block to the final `throw` and never calls the legacy
endpoint — even when the legacy endpoint would have returned a perfectly
good vector. -/
theorem getEmbedding_no_legacy_retry_on_shape_mismatch :
    getEmbedding (.ok ⟨none, none, none⟩) (.ok ⟨some [1, 2], none, none⟩) = .error () ∧
      probeShapes ⟨some [1, 2], none, none⟩ = some (some [1, 2]) :=
  ⟨rfl, rfl⟩

/-- C3 (amended) — the legacy failover happens exactly when the primary
*call throws*: if the primary call resolves, the result is the
three-shape probe of its response alone (an unmatched shape is an
immediate failure, independent of the legacy endpoint); if the primary
call throws, the same three-shape probe is applied to the legacy
response, and the call fails only after the legacy call also throws or
matches no shape. -/
theorem getEmbedding_failover_only_on_throw (r r2 : EmbResp) (l l1 l2 : Except Unit EmbResp) :
    getEmbedding (.ok r) l1 = getEmbedding (.ok r) l2 ∧
      getEmbedding (.ok r) l = (probeShapes r).elim (Except.error ()) Except.ok ∧
      getEmbedding (.error ()) (.ok r2) = (probeShapes r2).elim (Except.error ()) Except.ok ∧
      getEmbedding (.error ()) (.error ()) = .error () := by
  refine ⟨rfl, ?_, ?_, rfl⟩
  · simp only [getEmbedding]
    cases probeShapes r <;> rfl
  · simp only [getEmbedding]
    cases probeShapes r2 <;> rfl

/-! ## Claims about the vector index -/

/-- If some chunk at position ≥ 1 of the remaining list fails to embed,
the point-building loop aborts with that exception. -/
theorem buildPointsAux_error (embed : PVal → Except Unit Vec) (genId : Nat → String)
    (documentId : String) (md : JsObj) (firstVec : Vec) :
    ∀ (l : List ChunkRec) (i : Nat), 1 ≤ i → (∃ c ∈ l, embed c.text = .error ()) →
      buildPointsAux embed genId documentId md firstVec i l = .error () := by
  intro l
  induction l with
  | nil =>
    intro i hi hex
    obtain ⟨c, hc, _⟩ := hex
    simp at hc
  | cons c rest ih =>
    intro i hi hex
    simp only [buildPointsAux, if_neg (by omega : ¬ i = 0)]
    cases hembed : embed c.text with
    | error e => cases e; rfl
    | ok v =>
      obtain ⟨c', hc', herr⟩ := hex
      rcases List.mem_cons.mp hc' with hceq | hcm
      · subst hceq
        rw [hembed] at herr
        cases herr
      · rw [ih (i + 1) (by omega) ⟨c', hcm, herr⟩]

/-- C5 — if embedding any chunk of an `upsertChunks` call fails, the
call aborts with the exception and *no* points are written: the batch
`upsert` is never issued, so the collection's point set is exactly the
state before the call. -/
theorem upsert_atomic_on_embed_failure (embed : PVal → Except Unit Vec) (genId : Nat → String)
    (documentId : String) (chunks : List ChunkRec) (md : JsObj) (state : List QPoint)
    (hfail : ∃ c ∈ chunks, embed c.text = .error ()) :
    upsertChunks embed genId documentId chunks md state = (.error (), state) := by
  cases chunks with
  | nil =>
    obtain ⟨c, hc, _⟩ := hfail
    simp at hc
  | cons c0 rest =>
    simp only [upsertChunks]
    split
    · rename_i e h0
      cases e
      rfl
    · rename_i firstVec h0
      have hrest : ∃ c ∈ rest, embed c.text = .error () := by
        obtain ⟨c', hc', herr⟩ := hfail
        rcases List.mem_cons.mp hc' with hceq | hcm
        · subst hceq; rw [h0] at herr; cases herr
        · exact ⟨c', hcm, herr⟩
      have hbuild : buildPointsAux embed genId documentId md firstVec 0 (c0 :: rest) =
          .error () := by
        simp only [buildPointsAux, if_pos rfl, ite_true,
          buildPointsAux_error embed genId documentId md firstVec rest 1 (by omega) hrest]
      rw [hbuild]

/-- Witness for C5: the second chunk fails to embed, and the point set
(one pre-existing point) is unchanged while the call reports the error. -/
theorem upsert_atomic_on_embed_failure_witness :
    upsertChunks (fun v => if v = PVal.str "bad" then .error () else .ok [1])
        (fun _ => "id") "D"
        [⟨PVal.str "good", none, 0⟩, ⟨PVal.str "bad", none, 1⟩] []
        [⟨"p0", [2], []⟩] =
      (.error (), [⟨"p0", [2], []⟩]) :=
  upsert_atomic_on_embed_failure _ _ _ _ _ _
    ⟨⟨PVal.str "bad", none, 1⟩, by decide, rfl⟩

/-- Auxiliary: a successful `find?` on the left part of an append is the
`find?` of the whole append. -/
theorem find?_append_some {α : Type} {p : α → Bool} {l1 l2 : List α} {a : α}
    (h : l1.find? p = some a) : (l1 ++ l2).find? p = some a := by
  induction l1 with
  | nil => simp [List.find?] at h
  | cons x xs ih =>
    rw [List.cons_append]
    cases hx : p x with
    | true =>
      rw [List.find?_cons_of_pos _ hx] at h
      rw [List.find?_cons_of_pos _ hx]
      exact h
    | false =>
      rw [List.find?_cons_of_neg _ (by simp [hx])] at h
      rw [List.find?_cons_of_neg _ (by simp [hx])]
      exact ih h

/-- A key present in the appended (spread-last) object wins the lookup,
whatever the earlier entries say. -/
theorem jsGet_append_right {core md : JsObj} {k : String} {v : PVal}
    (h : jsGet md k = some v) : jsGet (core ++ md) k = some v := by
  unfold jsGet at h ⊢
  rw [List.reverse_append]
  cases hf : md.reverse.find? (fun kv => kv.1 = k) with
  | none => rw [hf] at h; cases h
  | some kv =>
    rw [hf] at h
    rw [find?_append_some hf]
    exact h

/-- Every point produced by the building loop carries the payload of one
of the input chunks. -/
theorem buildPointsAux_payload (embed : PVal → Except Unit Vec) (genId : Nat → String)
    (documentId : String) (md : JsObj) (firstVec : Vec) :
    ∀ (l : List ChunkRec) (i : Nat) (pts : List QPoint),
      buildPointsAux embed genId documentId md firstVec i l = .ok pts →
      ∀ p ∈ pts, ∃ c ∈ l, p.payload = chunkPayload documentId c md := by
  intro l
  induction l with
  | nil =>
    intro i pts h p hp
    simp only [buildPointsAux] at h
    cases h
    simp at hp
  | cons c rest ih =>
    intro i pts h p hp
    simp only [buildPointsAux] at h
    cases hv : (if i = 0 then Except.ok firstVec else embed c.text) with
    | error e => rw [hv] at h; cases h
    | ok v =>
      rw [hv] at h
      cases hr : buildPointsAux embed genId documentId md firstVec (i + 1) rest with
      | error e => rw [hr] at h; cases h
      | ok ps =>
        rw [hr] at h
        cases h
        rcases List.mem_cons.mp hp with hpe | hpm
        · subst hpe
          exact ⟨c, List.mem_cons_self c rest, rfl⟩
        · obtain ⟨c', hc', hpay⟩ := ih (i + 1) ps hr p hpm
          exact ⟨c', List.mem_cons_of_mem c hc', hpay⟩

/-- C10 — because `...baseMetadata` is spread after the four core fields
of each point's payload, any `baseMetadata` key (in particular
`documentId`, `text`, `page`, `chunkIndex`) overrides the corresponding
core field: a key/value pair present in `baseMetadata` is what every
payload lookup returns, and in particular every point stored by an
`upsertChunks` call whose `baseMetadata` carries a `documentId` key has
`payload.documentId` equal to the metadata value, not the `documentId`
argument. -/
theorem baseMetadata_overrides_core_payload (embed : PVal → Except Unit Vec)
    (genId : Nat → String) (documentId : String) (chunks : List ChunkRec) (md : JsObj)
    (state : List QPoint) (c : ChunkRec) (k : String) (v : PVal)
    (hmd : jsGet md k = some v) :
    jsGet (chunkPayload documentId c md) k = some v ∧
      ∀ res st', upsertChunks embed genId documentId chunks md state = (res, st') →
        ∀ p ∈ st', p ∈ state ∨ jsGet p.payload k = some v := by
  constructor
  · unfold chunkPayload
    exact jsGet_append_right hmd
  · intro res st' hts p hp
    cases chunks with
    | nil =>
      simp only [upsertChunks] at hts
      cases hts
      exact Or.inl hp
    | cons c0 rest =>
      simp only [upsertChunks] at hts
      split at hts
      · cases hts
        exact Or.inl hp
      · rename_i firstVec h0
        split at hts
        · cases hts
          exact Or.inl hp
        · rename_i pts hb
          cases hts
          rcases List.mem_append.mp hp with hps | hpn
          · exact Or.inl hps
          · obtain ⟨c', _, hpay⟩ :=
              buildPointsAux_payload embed genId documentId md firstVec (c0 :: rest) 0 pts hb p hpn
            right
            rw [hpay]
            unfold chunkPayload
            exact jsGet_append_right hmd

/-- Witness for C10: metadata `documentId = "META"` overrides the
argument `documentId = "D"` in the stored payload. -/
theorem baseMetadata_overrides_core_payload_witness :
    jsGet (chunkPayload "D" ⟨PVal.str "t", none, 0⟩ [("documentId", PVal.str "META")])
        "documentId" = some (PVal.str "META") ∧
      ∀ res st',
        upsertChunks (fun _ => .ok [1]) (fun _ => "id") "D" [⟨PVal.str "t", none, 0⟩]
            [("documentId", PVal.str "META")] [] = (res, st') →
        ∀ p ∈ st', p ∈ ([] : List QPoint) ∨
          jsGet p.payload "documentId" = some (PVal.str "META") :=
  baseMetadata_overrides_core_payload _ _ "D" _ _ _ ⟨PVal.str "t", none, 0⟩ _ _ (by decide)

/-- C1 — isolation: a `search` scoped to document `a` never returns a
result whose payload `documentId` is a different document `b`, whatever
points are in the shared collection (in particular whatever chunks have
been upserted for `b`), because the server-side `must`-match filter on
the `documentId` payload key is applied before ranking and truncation. -/
theorem search_isolated_by_document_filter (sim : Vec → Vec → Int) (points : List QPoint)
    (qv : Vec) (a b : String) (k : Nat) (rs : List SearchResult) (r : SearchResult)
    (hab : a ≠ b) (hs : search sim points (.ok qv) a k = .ok rs) (hr : r ∈ rs) :
    jsGet r.payload "documentId" ≠ some (PVal.str b) := by
  simp only [search] at hs
  injection hs with hs
  subst hs
  simp only [qdrantFilteredSearch] at hr
  obtain ⟨p, hp, hpr⟩ := List.mem_map.mp hr
  have hp1 := List.mem_of_mem_take hp
  have hp2 := (List.mem_insertionSort _).mp hp1
  have hid : jsGet p.payload "documentId" = some (PVal.str a) :=
    of_decide_eq_true (List.mem_filter.mp hp2).2
  rw [← hpr]
  simp only []
  rw [hid]
  intro heq
  injection heq with heq2
  injection heq2 with heq3
  exact hab heq3

/-- Witness for C1: with one point for document `A` and one for `B` in
the shared collection, searching `A` returns only `A`-payload hits. -/
theorem search_isolated_by_document_filter_witness :
    jsGet (SearchResult.mk "pa" 0
        (chunkPayload "A" ⟨PVal.strArr ["x"], none, 0⟩ [])).payload "documentId" ≠
      some (PVal.str "B") :=
  search_isolated_by_document_filter (fun _ _ => 0)
    [⟨"pa", [1], chunkPayload "A" ⟨PVal.strArr ["x"], none, 0⟩ []⟩,
     ⟨"pb", [2], chunkPayload "B" ⟨PVal.strArr ["y"], none, 0⟩ []⟩]
    [1] "A" "B" 5
    [⟨"pa", 0, chunkPayload "A" ⟨PVal.strArr ["x"], none, 0⟩ []⟩]
    ⟨"pa", 0, chunkPayload "A" ⟨PVal.strArr ["x"], none, 0⟩ []⟩
    (by decide) rfl (by decide)

/-! ## Claims about the context assembler -/

/-- C8 — counterexample to the history cap holding for *every*
configuration: with `HISTORY_MESSAGES = 0`, JS `slice(-0)` is `slice(0)`,
so the *entire* history is forwarded — here 1 entry, violating the cap
of 0. -/
theorem history_cap_fails_at_zero :
    recentHistory [⟨"user", "hi"⟩] 0 = [⟨"user", "hi"⟩] ∧
      ¬ (recentHistory [⟨"user", "hi"⟩] 0).length ≤ 0 :=
  ⟨by decide, by decide⟩

/-- C8 (amended) — for every results list, history list and
configuration with `historyMessages ≥ 1`, all three caps hold: at most
`maxContextChunks` context texts, each of length at most `charsPerChunk`
and nonempty (empty entries are dropped), and the forwarded history is
exactly the suffix of the last `min(historyMessages, length)` entries.
(For `historyMessages = 0` the history cap fails, see the
counterexample.) -/
theorem assemble_caps (results : List CtxItem) (history : List Turn)
    (maxContextChunks charsPerChunk historyMessages : Nat) (hh : 1 ≤ historyMessages) :
    (normalizedContext results maxContextChunks charsPerChunk).length ≤ maxContextChunks ∧
      (∀ t ∈ normalizedContext results maxContextChunks charsPerChunk,
        t.length ≤ charsPerChunk ∧ 0 < t.length) ∧
      (recentHistory history historyMessages).length = min historyMessages history.length ∧
      recentHistory history historyMessages <:+ history := by
  refine ⟨?_, ?_, ?_, ?_⟩
  · simp only [normalizedContext]
    refine le_trans (List.length_filter_le _ _) ?_
    rw [List.length_map]
    exact List.length_take_le _ _
  · intro t ht
    simp only [normalizedContext, List.mem_filter] at ht
    obtain ⟨htm, htpos⟩ := ht
    obtain ⟨c, _, rfl⟩ := List.mem_map.mp htm
    constructor
    · show (((coerceToString c.text).data.take charsPerChunk)).length ≤ charsPerChunk
      exact List.length_take_le _ _
    · exact of_decide_eq_true htpos
  · simp only [recentHistory, jsSliceStart,
      if_pos (show -(historyMessages : Int) < 0 by omega)]
    rw [List.length_drop]
    omega
  · simp only [recentHistory, jsSliceStart,
      if_pos (show -(historyMessages : Int) < 0 by omega)]
    exact List.drop_suffix _ _

/-- Witness for C8 (amended): one oversized context entry is truncated
to 3 characters and a two-turn history is cut to its last entry. -/
theorem assemble_caps_witness :
    (normalizedContext [⟨PVal.str "hello", none, 1⟩] 1 3).length ≤ 1 ∧
      (∀ t ∈ normalizedContext [⟨PVal.str "hello", none, 1⟩] 1 3,
        t.length ≤ 3 ∧ 0 < t.length) ∧
      (recentHistory [⟨"u", "a"⟩, ⟨"a", "b"⟩] 1).length =
        min 1 [(⟨"u", "a"⟩ : Turn), ⟨"a", "b"⟩].length ∧
      recentHistory [⟨"u", "a"⟩, ⟨"a", "b"⟩] 1 <:+ [⟨"u", "a"⟩, ⟨"a", "b"⟩] :=
  assemble_caps [⟨PVal.str "hello", none, 1⟩] [⟨"u", "a"⟩, ⟨"a", "b"⟩] 1 3 1 (by decide)

/-! ## Claims about the lexical fallback scorer -/

/-- No fragment produced by the sentence split contains a terminal
punctuation character: the split really does cut at every `.`, `!`, `?`
run. -/
theorem splitTermAux_no_terminal :
    ∀ (l cur : List Char) (lastT : Bool), (∀ ch ∈ cur, isTerminal ch = false) →
      ∀ seg ∈ splitTermAux l cur lastT, ∀ ch ∈ seg, isTerminal ch = false := by
  intro l
  induction l with
  | nil =>
    intro cur lastT hcur seg hseg ch hch
    cases lastT with
    | false =>
      simp [splitTermAux] at hseg
      subst hseg
      exact hcur ch (List.mem_reverse.mp hch)
    | true =>
      simp [splitTermAux] at hseg
      rcases hseg with hseg | hseg
      · subst hseg
        exact hcur ch (List.mem_reverse.mp hch)
      · subst hseg
        simp at hch
  | cons c rest ih =>
    intro cur lastT hcur seg hseg ch hch
    cases hc : isTerminal c with
    | true =>
      simp only [splitTermAux, hc, ite_true] at hseg
      exact ih cur true hcur seg hseg ch hch
    | false =>
      cases lastT with
      | true =>
        simp only [splitTermAux, hc, Bool.false_eq_true, ite_false, ite_true] at hseg
        rcases List.mem_cons.mp hseg with he | hm
        · subst he
          exact hcur ch (List.mem_reverse.mp hch)
        · refine ih [c] false ?_ seg hm ch hch
          intro x hx
          simp at hx
          subst hx
          exact hc
      | false =>
        simp only [splitTermAux, hc, Bool.false_eq_true, ite_false] at hseg
        refine ih (c :: cur) false ?_ seg hseg ch hch
        intro x hx
        rcases List.mem_cons.mp hx with h1 | h2
        · subst h1; exact hc
        · exact hcur x h2

/-- C9 — counterexample: a fragment whose trimmed length is exactly 10
characters is *discarded* (the filter is strict, `> 10`), contradicting
"every fragment of length 10 or more is kept". -/
theorem length_ten_fragment_discarded :
    "abcdefghij" ∈ splitTerminal "abcdefghij.abcdefghijkl" ∧
      (jsTrim "abcdefghij").length = 10 ∧
      "abcdefghij" ∉ findCandidateSentences "abcdefghij.abcdefghijkl" :=
  ⟨by decide, by decide, by decide⟩

/-- C9 (amended) — the scorer splits content on runs of sentence-terminal
punctuation (no fragment contains `.`, `!` or `?`) and keeps exactly the
fragments whose *trimmed* length is strictly greater than 10 characters;
fragments of trimmed length 10 or less are discarded. -/
theorem candidate_sentences_kept_iff (content s : String) :
    (s ∈ findCandidateSentences content ↔
      s ∈ splitTerminal content ∧ 10 < (jsTrim s).length) ∧
      ∀ t ∈ splitTerminal content, ∀ ch ∈ t.data, isTerminal ch = false := by
  constructor
  · simp only [findCandidateSentences, List.mem_filter, decide_eq_true_eq]
  · intro t ht ch hch
    simp only [splitTerminal] at ht
    obtain ⟨seg, hseg, rfl⟩ := List.mem_map.mp ht
    refine splitTermAux_no_terminal content.data [] false ?_ seg hseg ch hch
    intro x hx
    simp at hx
